import Mathlib

/-!
Shallow embedding of the Eclat association-rule miner of
`training-job/train_job.py` (class `EclatAlgorithm`, duplicated verbatim in
`app.py`).

Modelling conventions:
* items are values of an arbitrary linearly ordered type `α`
  (the source uses strings ordered lexicographically by Python `sorted`);
* Python `set` of transaction ids becomes `Finset ℕ`;
* Python floats (supports, confidences, lifts) become exact rationals `ℚ`;
  `int(x)` on a nonnegative float becomes `Int.toNat ⌊x⌋`;
* the `defaultdict` built by `_build_tid_lists` becomes the function
  `tidList`, and the insertion (first-occurrence) order of its keys is
  recovered by `keysInOrder`;
* the instance lists `self.frequent_itemsets` / `self.rules` that the
  Python methods append to become the returned lists, concatenated in the
  same depth-first order.
-/

set_option linter.unusedSectionVars false

namespace Eclat

variable {α : Type} [LinearOrder α]

/-- Tid-list of a single item: the set of transaction ids whose transaction
contains the item (`_build_tid_lists`: `for tid, transaction in
enumerate(transactions): for item in transaction: tid_lists[item].add(tid)`). -/
def tidList (ts : List (List α)) (x : α) : Finset ℕ :=
  (Finset.range ts.length).filter (fun t => x ∈ ts.getD t [])

/-- Append an element to an accumulator unless already present. -/
def insertAbsent (acc : List α) (x : α) : List α :=
  if x ∈ acc then acc else acc ++ [x]

/-- The distinct elements of a list in first-occurrence order: the key order
of the Python dict built by `_build_tid_lists`. -/
def keysInOrder (l : List α) : List α :=
  l.foldl insertAbsent []

/-- The support-count threshold `min_sup_count = int(self.min_support *
self.num_transactions)` of `fit` (truncation of a nonnegative product). -/
def minCount (s : ℚ) (N : ℕ) : ℕ :=
  (⌊s * (N : ℚ)⌋).toNat

/-- One element of `self.frequent_itemsets`: the dict
`{'itemset': ..., 'support': ..., 'tid_list': ...}`. -/
structure ItemsetEntry (α : Type) where
  itemset : List α
  support : ℚ
  tid_list : Finset ℕ
deriving DecidableEq

/-- One element of `self.rules`: the dict with antecedent, consequent,
support, confidence and lift. -/
structure Rule (α : Type) where
  antecedent : List α
  consequent : List α
  support : ℚ
  confidence : ℚ
  lift : ℚ
deriving DecidableEq

/-- The recursive depth-first search `_eclat_recursive(prefix, prefix_tids,
remaining_items, ...)`: for each remaining item in order, intersect
tid-lists; when the intersection reaches `min_sup_count`, emit the extended
itemset and, while its size is below 5, recurse on the strictly later
remaining items. -/
def eclatRec (freq : α → Finset ℕ) (N mc : ℕ) :
    List α → Finset ℕ → List α → List (ItemsetEntry α)
  | _, _, [] => []
  | pre, preTids, x :: rest =>
      let newTids := preTids ∩ freq x
      (if mc ≤ newTids.card then
        { itemset := pre ++ [x]
          support := (newTids.card : ℚ) / (N : ℚ)
          tid_list := newTids } ::
          (if (pre ++ [x]).length < 5 then
            eclatRec freq N mc (pre ++ [x]) newTids rest
          else [])
      else []) ++ eclatRec freq N mc pre preTids rest

/-- The loop `for i, item in enumerate(items): _eclat_recursive([item],
frequent_items[item], items[i+1:], ...)` of `fit` (Passo 3). -/
def eclatTop (freq : α → Finset ℕ) (N mc : ℕ) : List α → List (ItemsetEntry α)
  | [] => []
  | x :: rest => eclatRec freq N mc [x] (freq x) rest ++ eclatTop freq N mc rest

/-- The frequent single items, in dict-key (first-occurrence) order: the
keys of `frequent_items = {item: tids for item, tids in tid_lists.items()
if len(tids) >= min_sup_count}`. -/
def freqItemsList (ts : List (List α)) (mc : ℕ) : List α :=
  (keysInOrder ts.flatten).filter (fun x => decide (mc ≤ (tidList ts x).card))

/-- The sorted list `items = sorted(frequent_items.keys())` of `fit`
(`insertionSort` is one implementation of Python `sorted`; the key list is
duplicate-free, so any sorting algorithm yields the same list). -/
def sortedItems (ts : List (List α)) (mc : ℕ) : List α :=
  (freqItemsList ts mc).insertionSort (· ≤ ·)

/-- The size-1 entries appended by `fit` (Passo 2), in dict-key order:
`for item, tids in frequent_items.items(): frequent_itemsets.append(...)`. -/
def size1Entries (ts : List (List α)) (mc : ℕ) : List (ItemsetEntry α) :=
  (freqItemsList ts mc).map (fun x =>
    { itemset := [x]
      support := ((tidList ts x).card : ℚ) / (ts.length : ℚ)
      tid_list := tidList ts x })

/-- The full `self.frequent_itemsets` list produced by `fit(transactions)`:
size-1 itemsets in dict order, then the depth-first search over
`items = sorted(frequent_items.keys())`. -/
def fitItemsets (ts : List (List α)) (minSupport : ℚ) : List (ItemsetEntry α) :=
  let mc := minCount minSupport ts.length
  size1Entries ts mc ++ eclatTop (tidList ts) ts.length mc (sortedItems ts mc)

/-- The support lookup dict `itemset_support[frozenset(fs['itemset'])] =
fs['support']` of `_generate_rules`; later entries overwrite earlier ones,
so the lookup returns the support of the last entry with that content. -/
def supportLookup (entries : List (ItemsetEntry α)) (s : Finset α) : Option ℚ :=
  (entries.reverse.find? (fun e => decide (e.itemset.toFinset = s))).map
    (fun e => e.support)

/-- Rules produced from one antecedent choice inside `_generate_rules`:
the consequent is the itemset filtered of antecedent members; a missing
antecedent support discards the split; confidence is filtered against
`min_confidence`; a missing consequent support defaults to `0.0001`. -/
def rulesFromSplit (lookup : Finset α → Option ℚ) (minConf : ℚ)
    (itemset : List α) (itemsetSup : ℚ) (ante : List α) : List (Rule α) :=
  let conseq := itemset.filter (fun x => decide (x ∉ ante))
  match lookup ante.toFinset with
  | none => []
  | some anteSup =>
      let conf := itemsetSup / anteSup
      if minConf ≤ conf then
        let conseqSup := (lookup conseq.toFinset).getD (1 / 10000)
        [{ antecedent := ante
           consequent := conseq
           support := itemsetSup
           confidence := conf
           lift := conf / conseqSup }]
      else []

/-- The rule generator `_generate_rules`: for every frequent itemset of
size ≥ 2 and every antecedent size `i ∈ range(1, len(itemset))`, every
`i`-combination of the itemset is tried as antecedent. -/
def generateRules (entries : List (ItemsetEntry α)) (minConf : ℚ) : List (Rule α) :=
  entries.flatMap (fun fs =>
    if fs.itemset.length < 2 then []
    else
      (List.range' 1 (fs.itemset.length - 1)).flatMap (fun i =>
        (fs.itemset.sublistsLen i).flatMap
          (rulesFromSplit (supportLookup entries) minConf fs.itemset fs.support)))

/-- The state of an `EclatAlgorithm` instance after `fit(transactions)`:
the frequent-itemset list and the rule list. -/
structure EclatResult (α : Type) where
  frequent_itemsets : List (ItemsetEntry α)
  rules : List (Rule α)
deriving DecidableEq

/-- Running `fit` end to end with the given thresholds. -/
def eclatFit (ts : List (List α)) (minSupport minConfidence : ℚ) : EclatResult α :=
  let fis := fitItemsets ts minSupport
  { frequent_itemsets := fis, rules := generateRules fis minConfidence }

/-- The dictionary returned by `get_results`: itemsets stripped of their
tid-lists, the rules, and the two counters. -/
structure Results (α : Type) where
  frequent_itemsets : List (List α × ℚ)
  rules : List (Rule α)
  num_rules : ℕ
  num_itemsets : ℕ
deriving DecidableEq

/-- Composition `fit` then `get_results`. -/
def getResults (ts : List (List α)) (minSupport minConfidence : ℚ) : Results α :=
  let r := eclatFit ts minSupport minConfidence
  { frequent_itemsets := r.frequent_itemsets.map (fun e => (e.itemset, e.support))
    rules := r.rules
    num_rules := r.rules.length
    num_itemsets := r.frequent_itemsets.length }

/-- Reference tid-set of an itemset, given by its item list: the set of
transaction ids whose transaction contains every item of the list. -/
def itemsetTids (ts : List (List α)) (l : List α) : Finset ℕ :=
  (Finset.range ts.length).filter (fun t => ∀ x ∈ l, x ∈ ts.getD t [])

/-- Reference tid-set of an itemset given by its item content as a set. -/
def coverTids (ts : List (List α)) (S : Finset α) : Finset ℕ :=
  (Finset.range ts.length).filter (fun t => ∀ x ∈ S, x ∈ ts.getD t [])

section BasicLemmas

lemma mem_tidList {ts : List (List α)} {x : α} {t : ℕ} :
    t ∈ tidList ts x ↔ t < ts.length ∧ x ∈ ts.getD t [] := by
  simp [tidList]

lemma mem_foldl_insertAbsent (l : List α) :
    ∀ (acc : List α) (y : α),
      y ∈ l.foldl insertAbsent acc ↔ y ∈ acc ∨ y ∈ l := by
  induction l with
  | nil => simp
  | cons x xs ih =>
      intro acc y
      rw [List.foldl_cons, ih]
      unfold insertAbsent
      by_cases hx : x ∈ acc
      · simp only [if_pos hx, List.mem_cons]
        constructor
        · rintro (h | h)
          · exact Or.inl h
          · exact Or.inr (Or.inr h)
        · rintro (h | rfl | h)
          · exact Or.inl h
          · exact Or.inl hx
          · exact Or.inr h
      · simp only [if_neg hx, List.mem_append, List.mem_singleton, List.mem_cons]
        tauto

lemma nodup_foldl_insertAbsent (l : List α) :
    ∀ (acc : List α), acc.Nodup → (l.foldl insertAbsent acc).Nodup := by
  induction l with
  | nil => intro acc h; simpa using h
  | cons x xs ih =>
      intro acc hacc
      rw [List.foldl_cons]
      apply ih
      unfold insertAbsent
      split
      · exact hacc
      · rename_i hx
        simp [List.nodup_append, hacc, hx]

lemma mem_keysInOrder {l : List α} {y : α} : y ∈ keysInOrder l ↔ y ∈ l := by
  unfold keysInOrder
  rw [mem_foldl_insertAbsent]
  simp

lemma nodup_keysInOrder (l : List α) : (keysInOrder l).Nodup :=
  nodup_foldl_insertAbsent l [] List.nodup_nil

lemma mem_freqItemsList {ts : List (List α)} {mc : ℕ} {x : α} :
    x ∈ freqItemsList ts mc ↔ x ∈ ts.flatten ∧ mc ≤ (tidList ts x).card := by
  unfold freqItemsList
  rw [List.mem_filter, mem_keysInOrder]
  simp

lemma nodup_freqItemsList (ts : List (List α)) (mc : ℕ) :
    (freqItemsList ts mc).Nodup :=
  (nodup_keysInOrder _).filter _

lemma mem_sortedItems {ts : List (List α)} {mc : ℕ} {x : α} :
    x ∈ sortedItems ts mc ↔ x ∈ freqItemsList ts mc :=
  (List.perm_insertionSort _ _).mem_iff

lemma nodup_sortedItems (ts : List (List α)) (mc : ℕ) :
    (sortedItems ts mc).Nodup :=
  ((List.perm_insertionSort _ _).nodup_iff).2 (nodup_freqItemsList ts mc)

lemma sorted_lt_sortedItems (ts : List (List α)) (mc : ℕ) :
    (sortedItems ts mc).Sorted (· < ·) :=
  (List.sorted_insertionSort _ _).lt_of_le (nodup_sortedItems ts mc)

lemma mem_itemsetTids {ts : List (List α)} {l : List α} {t : ℕ} :
    t ∈ itemsetTids ts l ↔ t < ts.length ∧ ∀ x ∈ l, x ∈ ts.getD t [] := by
  simp [itemsetTids]

lemma mem_coverTids {ts : List (List α)} {S : Finset α} {t : ℕ} :
    t ∈ coverTids ts S ↔ t < ts.length ∧ ∀ x ∈ S, x ∈ ts.getD t [] := by
  simp [coverTids]

lemma itemsetTids_singleton (ts : List (List α)) (x : α) :
    itemsetTids ts [x] = tidList ts x := by
  ext t
  simp [mem_itemsetTids, mem_tidList]

lemma itemsetTids_append_singleton (ts : List (List α)) (l : List α) (x : α) :
    itemsetTids ts (l ++ [x]) = itemsetTids ts l ∩ tidList ts x := by
  ext t
  simp only [mem_itemsetTids, Finset.mem_inter, mem_tidList, List.mem_append,
    List.mem_singleton]
  constructor
  · rintro ⟨ht, h⟩
    exact ⟨⟨ht, fun y hy => h y (Or.inl hy)⟩, ht, h x (Or.inr rfl)⟩
  · rintro ⟨⟨ht, h⟩, -, hx⟩
    refine ⟨ht, fun y hy => ?_⟩
    rcases hy with hy | rfl
    · exact h y hy
    · exact hx

lemma itemsetTids_antitone {ts : List (List α)} {l₁ l₂ : List α}
    (h : ∀ x ∈ l₁, x ∈ l₂) : itemsetTids ts l₂ ⊆ itemsetTids ts l₁ := by
  intro t ht
  rw [mem_itemsetTids] at ht ⊢
  exact ⟨ht.1, fun x hx => ht.2 x (h x hx)⟩

lemma itemsetTids_eq_coverTids (ts : List (List α)) (l : List α) :
    itemsetTids ts l = coverTids ts l.toFinset := by
  ext t
  simp [mem_itemsetTids, mem_coverTids]

end BasicLemmas

section Unfolding

lemma eclatRec_nil (freq : α → Finset ℕ) (N mc : ℕ) (pre : List α)
    (preTids : Finset ℕ) : eclatRec freq N mc pre preTids [] = [] := rfl

lemma eclatRec_cons (freq : α → Finset ℕ) (N mc : ℕ) (pre : List α)
    (preTids : Finset ℕ) (x : α) (rest : List α) :
    eclatRec freq N mc pre preTids (x :: rest) =
      (if mc ≤ (preTids ∩ freq x).card then
        { itemset := pre ++ [x]
          support := ((preTids ∩ freq x).card : ℚ) / (N : ℚ)
          tid_list := preTids ∩ freq x } ::
          (if (pre ++ [x]).length < 5 then
            eclatRec freq N mc (pre ++ [x]) (preTids ∩ freq x) rest
          else [])
      else []) ++ eclatRec freq N mc pre preTids rest := rfl

lemma eclatTop_nil (freq : α → Finset ℕ) (N mc : ℕ) :
    eclatTop freq N mc [] = [] := rfl

lemma eclatTop_cons (freq : α → Finset ℕ) (N mc : ℕ) (x : α) (rest : List α) :
    eclatTop freq N mc (x :: rest) =
      eclatRec freq N mc [x] (freq x) rest ++ eclatTop freq N mc rest := rfl

lemma fitItemsets_eq (ts : List (List α)) (s : ℚ) :
    fitItemsets ts s =
      size1Entries ts (minCount s ts.length) ++
        eclatTop (tidList ts) ts.length (minCount s ts.length)
          (sortedItems ts (minCount s ts.length)) := rfl

end Unfolding

section Invariants

/-- Invariant satisfied by every entry appended to `self.frequent_itemsets`
during a run with threshold count `mc`: the item list is a nonempty strictly
sorted list of at most 5 items, the stored tid-list is the reference tid-set
of the item list, the stored support is its size divided by the number of
transactions, and the size clears the threshold. -/
def GoodEntry (ts : List (List α)) (mc : ℕ) (e : ItemsetEntry α) : Prop :=
  e.itemset ≠ [] ∧ e.itemset.Sorted (· < ·) ∧
  e.tid_list = itemsetTids ts e.itemset ∧
  e.support = (e.tid_list.card : ℚ) / (ts.length : ℚ) ∧
  mc ≤ e.tid_list.card ∧ e.itemset.length ≤ 5

lemma sorted_append_singleton {pre : List α} {x : α}
    (hpre : pre.Sorted (· < ·)) (hlt : ∀ p ∈ pre, p < x) :
    (pre ++ [x]).Sorted (· < ·) := by
  rw [List.Sorted, List.pairwise_append]
  exact ⟨hpre, List.pairwise_singleton _ x,
    fun p hp y hy => (List.mem_singleton.1 hy) ▸ hlt p hp⟩

lemma eclatRec_good (ts : List (List α)) (mc : ℕ) :
    ∀ (rest pre : List α) (preTids : Finset ℕ),
      pre ≠ [] → pre.Sorted (· < ·) → rest.Sorted (· < ·) →
      (∀ y ∈ rest, ∀ p ∈ pre, p < y) →
      preTids = itemsetTids ts pre → pre.length ≤ 4 →
      ∀ e ∈ eclatRec (tidList ts) ts.length mc pre preTids rest,
        GoodEntry ts mc e := by
  intro rest
  induction rest with
  | nil =>
      intro pre preTids _ _ _ _ _ _ e he
      simp [eclatRec_nil] at he
  | cons x rest ih =>
      intro pre preTids hne hpre hrest hlt htids hlen e he
      rw [eclatRec_cons] at he
      rcases List.mem_append.1 he with he | he
      · by_cases hfreq : mc ≤ (preTids ∩ tidList ts x).card
        · rw [if_pos hfreq] at he
          have hx : ∀ p ∈ pre, p < x := hlt x (List.mem_cons_self x rest)
          have hsorted' : (pre ++ [x]).Sorted (· < ·) :=
            sorted_append_singleton hpre hx
          have htids' : preTids ∩ tidList ts x = itemsetTids ts (pre ++ [x]) := by
            rw [itemsetTids_append_singleton, htids]
          rcases List.mem_cons.1 he with rfl | he
          · refine ⟨by simp, hsorted', htids', rfl, hfreq, ?_⟩
            simp only [List.length_append, List.length_singleton]
            omega
          · by_cases hsz : (pre ++ [x]).length < 5
            · rw [if_pos hsz] at he
              refine ih (pre ++ [x]) (preTids ∩ tidList ts x) (by simp)
                hsorted' hrest.of_cons ?_ htids' ?_ e he
              · intro y hy p hp
                rcases List.mem_append.1 hp with hp | hp
                · exact hlt y (List.mem_cons_of_mem x hy) p hp
                · rw [List.mem_singleton.1 hp]
                  exact (List.sorted_cons.1 hrest).1 y hy
              · simp only [List.length_append, List.length_singleton] at hsz ⊢
                omega
            · rw [if_neg hsz] at he
              simp at he
        · rw [if_neg hfreq] at he
          simp at he
      · exact ih pre preTids hne hpre hrest.of_cons
          (fun y hy => hlt y (List.mem_cons_of_mem x hy)) htids hlen e he

lemma eclatTop_good (ts : List (List α)) (mc : ℕ) :
    ∀ (items : List α), items.Sorted (· < ·) →
      ∀ e ∈ eclatTop (tidList ts) ts.length mc items, GoodEntry ts mc e := by
  intro items
  induction items with
  | nil =>
      intro _ e he
      simp [eclatTop_nil] at he
  | cons x rest ih =>
      intro hsorted e he
      rw [eclatTop_cons] at he
      rcases List.mem_append.1 he with he | he
      · refine eclatRec_good ts mc rest [x] (tidList ts x) (by simp)
          (List.sorted_singleton x) hsorted.of_cons ?_
          (itemsetTids_singleton ts x).symm (by simp) e he
        intro y hy p hp
        rw [List.mem_singleton.1 hp]
        exact (List.sorted_cons.1 hsorted).1 y hy
      · exact ih hsorted.of_cons e he

lemma size1Entries_good (ts : List (List α)) (mc : ℕ) :
    ∀ e ∈ size1Entries ts mc, GoodEntry ts mc e := by
  intro e he
  simp only [size1Entries, List.mem_map] at he
  obtain ⟨x, hx, rfl⟩ := he
  rw [mem_freqItemsList] at hx
  exact ⟨by simp, List.sorted_singleton x, (itemsetTids_singleton ts x).symm,
    rfl, hx.2, by simp⟩

lemma fitItemsets_good (ts : List (List α)) (s : ℚ) :
    ∀ e ∈ fitItemsets ts s, GoodEntry ts (minCount s ts.length) e := by
  intro e he
  rw [fitItemsets_eq] at he
  rcases List.mem_append.1 he with he | he
  · exact size1Entries_good ts _ e he
  · exact eclatTop_good ts _ _ (sorted_lt_sortedItems ts _) e he

end Invariants

section Shape

lemma eclatRec_shape (freq : α → Finset ℕ) (N mc : ℕ) :
    ∀ (rest pre : List α) (preTids : Finset ℕ) (e : ItemsetEntry α),
      e ∈ eclatRec freq N mc pre preTids rest →
      ∃ y l, e.itemset = pre ++ y :: l ∧ y ∈ rest := by
  intro rest
  induction rest with
  | nil =>
      intro pre preTids e he
      simp [eclatRec_nil] at he
  | cons x rest ih =>
      intro pre preTids e he
      rw [eclatRec_cons] at he
      rcases List.mem_append.1 he with he | he
      · by_cases hfreq : mc ≤ (preTids ∩ freq x).card
        · rw [if_pos hfreq] at he
          rcases List.mem_cons.1 he with rfl | he
          · exact ⟨x, [], rfl, List.mem_cons_self x rest⟩
          · by_cases hsz : (pre ++ [x]).length < 5
            · rw [if_pos hsz] at he
              obtain ⟨y, l, hl, -⟩ := ih (pre ++ [x]) (preTids ∩ freq x) e he
              refine ⟨x, y :: l, ?_, List.mem_cons_self x rest⟩
              rw [hl, List.append_assoc]
              rfl
            · rw [if_neg hsz] at he
              simp at he
        · rw [if_neg hfreq] at he
          simp at he
      · obtain ⟨y, l, hl, hy⟩ := ih pre preTids e he
        exact ⟨y, l, hl, List.mem_cons_of_mem x hy⟩

lemma eclatTop_shape (freq : α → Finset ℕ) (N mc : ℕ) :
    ∀ (items : List α) (e : ItemsetEntry α), e ∈ eclatTop freq N mc items →
      ∃ y z l, e.itemset = y :: z :: l ∧ y ∈ items := by
  intro items
  induction items with
  | nil =>
      intro e he
      simp [eclatTop_nil] at he
  | cons x rest ih =>
      intro e he
      rw [eclatTop_cons] at he
      rcases List.mem_append.1 he with he | he
      · obtain ⟨y, l, hl, -⟩ := eclatRec_shape freq N mc rest [x] (freq x) e he
        exact ⟨x, y, l, by simpa using hl, List.mem_cons_self x rest⟩
      · obtain ⟨y, z, l, hl, hy⟩ := ih e he
        exact ⟨y, z, l, hl, List.mem_cons_of_mem x hy⟩

lemma eclatRec_itemset_form (freq : α → Finset ℕ) (N mc : ℕ)
    {rest pre : List α} {preTids : Finset ℕ} {a : List α}
    (ha : a ∈ (eclatRec freq N mc pre preTids rest).map (fun e => e.itemset)) :
    ∃ y l, a = pre ++ y :: l ∧ y ∈ rest := by
  rw [List.mem_map] at ha
  obtain ⟨e, he, rfl⟩ := ha
  exact eclatRec_shape freq N mc rest pre preTids e he

lemma eclatRec_itemsets_nodup (freq : α → Finset ℕ) (N mc : ℕ) :
    ∀ (rest pre : List α) (preTids : Finset ℕ), rest.Nodup →
      ((eclatRec freq N mc pre preTids rest).map
        (fun e => e.itemset)).Nodup := by
  intro rest
  induction rest with
  | nil =>
      intro pre preTids _
      simp [eclatRec_nil]
  | cons x rest ih =>
      intro pre preTids hnd
      obtain ⟨hx, hnd'⟩ := List.nodup_cons.1 hnd
      rw [eclatRec_cons, List.map_append, List.nodup_append]
      refine ⟨?_, ih pre preTids hnd', ?_⟩
      · by_cases hfreq : mc ≤ (preTids ∩ freq x).card
        · rw [if_pos hfreq, List.map_cons]
          refine List.nodup_cons.2 ⟨?_, ?_⟩
          · intro hmem
            by_cases hsz : (pre ++ [x]).length < 5
            · rw [if_pos hsz] at hmem
              obtain ⟨y, l, hl, -⟩ := eclatRec_itemset_form freq N mc hmem
              apply_fun List.length at hl
              simp at hl
            · rw [if_neg hsz] at hmem
              simp at hmem
          · by_cases hsz : (pre ++ [x]).length < 5
            · rw [if_pos hsz]
              exact ih (pre ++ [x]) (preTids ∩ freq x) hnd'
            · rw [if_neg hsz]
              simp
        · rw [if_neg hfreq]
          simp
      · intro a ha hb
        obtain ⟨y, l, hl, hy⟩ := eclatRec_itemset_form freq N mc hb
        have hform : ∃ l', a = pre ++ x :: l' := by
          by_cases hfreq : mc ≤ (preTids ∩ freq x).card
          · rw [if_pos hfreq, List.map_cons] at ha
            rcases List.mem_cons.1 ha with rfl | ha
            · exact ⟨[], rfl⟩
            · by_cases hsz : (pre ++ [x]).length < 5
              · rw [if_pos hsz] at ha
                obtain ⟨z, l', hl', -⟩ := eclatRec_itemset_form freq N mc ha
                refine ⟨z :: l', ?_⟩
                rw [hl', List.append_assoc]
                rfl
              · rw [if_neg hsz] at ha
                simp at ha
          · rw [if_neg hfreq] at ha
            simp at ha
        obtain ⟨l', rfl⟩ := hform
        have hxy : x :: l' = y :: l := List.append_cancel_left hl
        injection hxy with h1 _
        exact hx (h1 ▸ hy)

lemma eclatTop_itemsets_nodup (freq : α → Finset ℕ) (N mc : ℕ) :
    ∀ (items : List α), items.Nodup →
      ((eclatTop freq N mc items).map (fun e => e.itemset)).Nodup := by
  intro items
  induction items with
  | nil =>
      intro _
      simp [eclatTop_nil]
  | cons x rest ih =>
      intro hnd
      obtain ⟨hx, hnd'⟩ := List.nodup_cons.1 hnd
      rw [eclatTop_cons, List.map_append, List.nodup_append]
      refine ⟨eclatRec_itemsets_nodup freq N mc rest [x] (freq x) hnd',
        ih hnd', ?_⟩
      intro a ha hb
      obtain ⟨y, l, hl, hy⟩ := eclatRec_itemset_form freq N mc ha
      rw [List.mem_map] at hb
      obtain ⟨e, he, rfl⟩ := hb
      obtain ⟨y', z', l', hl', hy'⟩ := eclatTop_shape freq N mc rest e he
      rw [hl'] at hl
      simp only [List.cons_append, List.nil_append] at hl
      injection hl with h1 _
      exact hx (h1 ▸ hy')

lemma fitItemsets_itemsets_nodup (ts : List (List α)) (s : ℚ) :
    ((fitItemsets ts s).map (fun e => e.itemset)).Nodup := by
  rw [fitItemsets_eq, List.map_append, List.nodup_append]
  refine ⟨?_, eclatTop_itemsets_nodup _ _ _ _ (nodup_sortedItems ts _), ?_⟩
  · rw [size1Entries, List.map_map]
    exact (nodup_freqItemsList ts _).map
      (fun a b h => by simpa using h)
  · intro a ha hb
    rw [size1Entries, List.map_map, List.mem_map] at ha
    obtain ⟨x, -, rfl⟩ := ha
    rw [List.mem_map] at hb
    obtain ⟨e, he, heq⟩ := hb
    obtain ⟨y, z, l, hl, -⟩ := eclatTop_shape _ _ _ _ e he
    rw [hl] at heq
    simp at heq

end Shape

section Completeness

/-- Iterated tid-list intersection, as performed along one branch of the
depth-first search. -/
def interTids (freq : α → Finset ℕ) (base : Finset ℕ) (l : List α) : Finset ℕ :=
  l.foldl (fun acc x => acc ∩ freq x) base

lemma interTids_nil (freq : α → Finset ℕ) (base : Finset ℕ) :
    interTids freq base [] = base := rfl

lemma interTids_cons (freq : α → Finset ℕ) (base : Finset ℕ) (x : α)
    (l : List α) :
    interTids freq base (x :: l) = interTids freq (base ∩ freq x) l := rfl

lemma mem_interTids (freq : α → Finset ℕ) :
    ∀ (l : List α) (base : Finset ℕ) (t : ℕ),
      t ∈ interTids freq base l ↔ t ∈ base ∧ ∀ x ∈ l, t ∈ freq x := by
  intro l
  induction l with
  | nil => intro base t; simp [interTids_nil]
  | cons x l ih =>
      intro base t
      rw [interTids_cons, ih]
      simp only [Finset.mem_inter, List.mem_cons]
      constructor
      · rintro ⟨⟨h1, h2⟩, h3⟩
        refine ⟨h1, fun y hy => ?_⟩
        rcases hy with rfl | hy
        · exact h2
        · exact h3 y hy
      · rintro ⟨h1, h2⟩
        exact ⟨⟨h1, h2 x (Or.inl rfl)⟩, fun y hy => h2 y (Or.inr hy)⟩

lemma interTids_subset (freq : α → Finset ℕ) (l : List α) (base : Finset ℕ) :
    interTids freq base l ⊆ base := by
  intro t ht
  exact ((mem_interTids freq l base t).1 ht).1

lemma interTids_eq_itemsetTids (ts : List (List α)) (x : α) (l : List α) :
    interTids (tidList ts) (tidList ts x) l = itemsetTids ts (x :: l) := by
  ext t
  rw [mem_interTids, mem_tidList, mem_itemsetTids]
  constructor
  · rintro ⟨⟨ht, hx⟩, h⟩
    refine ⟨ht, fun y hy => ?_⟩
    rcases List.mem_cons.1 hy with rfl | hy
    · exact hx
    · exact (mem_tidList.1 (h y hy)).2
  · rintro ⟨ht, h⟩
    exact ⟨⟨ht, h x (List.mem_cons_self x l)⟩,
      fun y hy => mem_tidList.2 ⟨ht, h y (List.mem_cons_of_mem x hy)⟩⟩

lemma sublist_of_sorted_subset :
    ∀ {l₂ l₁ : List α}, l₁.Sorted (· < ·) → l₂.Sorted (· < ·) →
      (∀ x ∈ l₁, x ∈ l₂) → l₁.Sublist l₂ := by
  intro l₂
  induction l₂ with
  | nil =>
      intro l₁ _ _ h
      cases l₁ with
      | nil => exact List.Sublist.refl []
      | cons a l => exact absurd (h a (List.mem_cons_self a l)) (by simp)
  | cons y l₂ ih =>
      intro l₁ h₁ h₂ hsub
      cases l₁ with
      | nil => exact List.nil_sublist _
      | cons a l₁ =>
          by_cases hay : a = y
          · subst hay
            refine List.Sublist.cons₂ a (ih h₁.of_cons h₂.of_cons ?_)
            intro z hz
            rcases List.mem_cons.1 (hsub z (List.mem_cons_of_mem a hz)) with rfl | hz2
            · exact absurd ((List.sorted_cons.1 h₁).1 z hz) (lt_irrefl z)
            · exact hz2
          · refine List.Sublist.cons y (ih h₁ h₂.of_cons ?_)
            intro z hz
            rcases List.mem_cons.1 (hsub z hz) with rfl | hz2
            · rcases List.mem_cons.1 hz with rfl | hz3
              · exact absurd rfl hay
              · have haz : a < z := (List.sorted_cons.1 h₁).1 z hz3
                rcases List.mem_cons.1 (hsub a (List.mem_cons_self a l₁)) with h | h
                · exact absurd h hay
                · exact absurd (lt_trans haz ((List.sorted_cons.1 h₂).1 a h))
                    (lt_irrefl a)
            · exact hz2

lemma eclatRec_complete (freq : α → Finset ℕ) (N mc : ℕ) :
    ∀ (rest pre : List α) (preTids : Finset ℕ) (sl : List α),
      sl ≠ [] → sl.Sublist rest → pre.length + sl.length ≤ 5 →
      mc ≤ (interTids freq preTids sl).card →
      ∃ e ∈ eclatRec freq N mc pre preTids rest,
        e.itemset = pre ++ sl ∧ e.tid_list = interTids freq preTids sl := by
  intro rest
  induction rest with
  | nil =>
      intro pre preTids sl hne hsl _ _
      rw [List.sublist_nil] at hsl
      exact absurd hsl hne
  | cons x rest ih =>
      intro pre preTids sl hne hsl hlen hcard
      cases hsl with
      | cons _ hsl' =>
          obtain ⟨e, he, h1, h2⟩ := ih pre preTids sl hne hsl' hlen hcard
          refine ⟨e, ?_, h1, h2⟩
          rw [eclatRec_cons]
          exact List.mem_append_right _ he
      | cons₂ _ hsl' =>
          rename_i sl'
          have hsub : interTids freq preTids (x :: sl') ⊆ preTids ∩ freq x := by
            rw [interTids_cons]
            exact interTids_subset freq sl' (preTids ∩ freq x)
          have hfreq : mc ≤ (preTids ∩ freq x).card :=
            le_trans hcard (Finset.card_le_card hsub)
          cases sl' with
          | nil =>
              refine ⟨{ itemset := pre ++ [x]
                        support := ((preTids ∩ freq x).card : ℚ) / (N : ℚ)
                        tid_list := preTids ∩ freq x }, ?_, rfl, ?_⟩
              · rw [eclatRec_cons]
                refine List.mem_append_left _ ?_
                rw [if_pos hfreq]
                exact List.mem_cons_self _ _
              · rw [interTids_cons, interTids_nil]
          | cons z sl'' =>
              have hlen5 : (pre ++ [x]).length < 5 := by
                simp only [List.length_append, List.length_singleton,
                  List.length_nil, List.length_cons] at hlen ⊢
                omega
              obtain ⟨e, he, h1, h2⟩ := ih (pre ++ [x]) (preTids ∩ freq x)
                (z :: sl'') (by simp) hsl'
                (by simp only [List.length_append, List.length_singleton,
                      List.length_nil, List.length_cons] at hlen ⊢; omega)
                hcard
              refine ⟨e, ?_, ?_, ?_⟩
              · rw [eclatRec_cons]
                refine List.mem_append_left _ ?_
                rw [if_pos hfreq]
                refine List.mem_cons_of_mem _ ?_
                rw [if_pos hlen5]
                exact he
              · rw [h1, List.append_assoc]
                rfl
              · rw [h2]
                rfl

lemma eclatTop_complete (freq : α → Finset ℕ) (N mc : ℕ) :
    ∀ (items : List α) (x : α) (sl : List α),
      (x :: sl).Sublist items → sl ≠ [] → (x :: sl).length ≤ 5 →
      mc ≤ (interTids freq (freq x) sl).card →
      ∃ e ∈ eclatTop freq N mc items, e.itemset = x :: sl := by
  intro items
  induction items with
  | nil =>
      intro x sl hsl _ _ _
      rw [List.sublist_nil] at hsl
      exact absurd hsl (by simp)
  | cons y rest ih =>
      intro x sl hsl hne hlen hcard
      cases hsl with
      | cons _ hsl' =>
          obtain ⟨e, he, h1⟩ := ih x sl hsl' hne hlen hcard
          refine ⟨e, ?_, h1⟩
          rw [eclatTop_cons]
          exact List.mem_append_right _ he
      | cons₂ _ hsl' =>
          obtain ⟨e, he, h1, -⟩ := eclatRec_complete freq N mc rest [y]
            (freq y) sl hne hsl'
            (by simp only [List.length_cons, List.length_singleton,
                  List.length_nil] at hlen ⊢; omega) hcard
          refine ⟨e, ?_, by simpa using h1⟩
          rw [eclatTop_cons]
          exact List.mem_append_left _ he

end Completeness

section RuleLemmas

lemma rulesFromSplit_none {lookup : Finset α → Option ℚ} {minConf : ℚ}
    {itemset : List α} {isSup : ℚ} {ante : List α}
    (h : lookup ante.toFinset = none) :
    rulesFromSplit lookup minConf itemset isSup ante = [] := by
  unfold rulesFromSplit
  rw [h]

lemma rulesFromSplit_some {lookup : Finset α → Option ℚ} {minConf : ℚ}
    {itemset : List α} {isSup : ℚ} {ante : List α} {v : ℚ}
    (h : lookup ante.toFinset = some v) :
    rulesFromSplit lookup minConf itemset isSup ante =
      if minConf ≤ isSup / v then
        [{ antecedent := ante
           consequent := itemset.filter (fun x => decide (x ∉ ante))
           support := isSup
           confidence := isSup / v
           lift := (isSup / v) /
             ((lookup
               (itemset.filter (fun x => decide (x ∉ ante))).toFinset).getD
               (1 / 10000)) }]
      else [] := by
  unfold rulesFromSplit
  rw [h]

lemma mem_rulesFromSplit {lookup : Finset α → Option ℚ} {minConf : ℚ}
    {itemset : List α} {isSup : ℚ} {ante : List α} {r : Rule α}
    (hr : r ∈ rulesFromSplit lookup minConf itemset isSup ante) :
    ∃ v, lookup ante.toFinset = some v ∧ minConf ≤ isSup / v ∧
      r = { antecedent := ante
            consequent := itemset.filter (fun x => decide (x ∉ ante))
            support := isSup
            confidence := isSup / v
            lift := (isSup / v) /
              ((lookup
                (itemset.filter (fun x => decide (x ∉ ante))).toFinset).getD
                (1 / 10000)) } := by
  cases hlu : lookup ante.toFinset with
  | none =>
      rw [rulesFromSplit_none hlu] at hr
      exact absurd hr (List.not_mem_nil r)
  | some v =>
      rw [rulesFromSplit_some hlu] at hr
      split at hr
      · exact ⟨v, rfl, by assumption, List.mem_singleton.1 hr⟩
      · exact absurd hr (List.not_mem_nil r)

lemma mem_generateRules {entries : List (ItemsetEntry α)} {minConf : ℚ}
    {r : Rule α} (hr : r ∈ generateRules entries minConf) :
    ∃ e ∈ entries, ∃ ante, ante.Sublist e.itemset ∧ 2 ≤ e.itemset.length ∧
      1 ≤ ante.length ∧ ante.length < e.itemset.length ∧
      r ∈ rulesFromSplit (supportLookup entries) minConf e.itemset
        e.support ante := by
  unfold generateRules at hr
  rw [List.mem_flatMap] at hr
  obtain ⟨e, he, hr⟩ := hr
  split at hr
  · exact absurd hr (List.not_mem_nil r)
  · rename_i hlen
    rw [List.mem_flatMap] at hr
    obtain ⟨i, hi, hr⟩ := hr
    rw [List.mem_flatMap] at hr
    obtain ⟨ante, hante, hr⟩ := hr
    rw [List.mem_sublistsLen] at hante
    rw [List.mem_range'_1] at hi
    refine ⟨e, he, ante, hante.1, by omega, ?_, ?_, hr⟩
    · omega
    · omega

lemma supportLookup_some {entries : List (ItemsetEntry α)} {S : Finset α}
    {v : ℚ} (h : supportLookup entries S = some v) :
    ∃ e ∈ entries, e.itemset.toFinset = S ∧ e.support = v := by
  unfold supportLookup at h
  cases hf : entries.reverse.find? (fun e => decide (e.itemset.toFinset = S)) with
  | none =>
      rw [hf] at h
      simp at h
  | some e =>
      rw [hf] at h
      have hm : e ∈ entries := List.mem_reverse.1 (List.mem_of_find?_eq_some hf)
      have hp' := List.find?_some hf
      simp only [decide_eq_true_eq] at hp'
      refine ⟨e, hm, hp', ?_⟩
      simpa using h

lemma mem_filter_not_mem {l ante : List α} {y : α} :
    y ∈ l.filter (fun x => decide (x ∉ ante)) ↔ y ∈ l ∧ y ∉ ante := by
  rw [List.mem_filter]
  simp

lemma split_union_content {l : List α} (ante : List α)
    (hsub : ∀ x ∈ ante, x ∈ l) :
    (ante ++ l.filter (fun x => decide (x ∉ ante))).toFinset = l.toFinset := by
  ext y
  simp only [List.toFinset_append, Finset.mem_union, List.mem_toFinset,
    mem_filter_not_mem]
  constructor
  · rintro (h | h)
    · exact hsub y h
    · exact h.1
  · intro h
    by_cases hy : y ∈ ante
    · exact Or.inl hy
    · exact Or.inr ⟨h, hy⟩

lemma filter_not_mem_ne_nil {l ante : List α} (hnd : l.Nodup)
    (hlt : ante.length < l.length) :
    l.filter (fun x => decide (x ∉ ante)) ≠ [] := by
  intro hnil
  have hall : ∀ x ∈ l, x ∈ ante := by
    intro x hx
    by_contra hxa
    have hx2 : x ∈ l.filter (fun x => decide (x ∉ ante)) :=
      mem_filter_not_mem.2 ⟨hx, hxa⟩
    rw [hnil] at hx2
    exact absurd hx2 (List.not_mem_nil x)
  have hle := (List.subperm_of_subset hnd hall).length_le
  omega

lemma itemsetTids_congr {ts : List (List α)} {l₁ l₂ : List α}
    (h : l₁.toFinset = l₂.toFinset) :
    itemsetTids ts l₁ = itemsetTids ts l₂ := by
  rw [itemsetTids_eq_coverTids, itemsetTids_eq_coverTids, h]

lemma eq_of_sorted_lt_of_toFinset_eq {l₁ l₂ : List α}
    (h₁ : l₁.Sorted (· < ·)) (h₂ : l₂.Sorted (· < ·))
    (h : l₁.toFinset = l₂.toFinset) : l₁ = l₂ := by
  haveI : IsAntisymm α (· < ·) := ⟨fun a b hab hba => absurd hba (lt_asymm hab)⟩
  exact List.eq_of_perm_of_sorted
    (List.perm_of_nodup_nodup_toFinset_eq h₁.nodup h₂.nodup h) h₁ h₂

end RuleLemmas

section ArithLemmas

lemma natCast_div_mono {a b : ℕ} (N : ℕ) (h : a ≤ b) :
    (a : ℚ) / (N : ℚ) ≤ (b : ℚ) / (N : ℚ) := by
  rcases Nat.eq_zero_or_pos N with rfl | hN
  · simp
  · have hNQ : (0 : ℚ) < (N : ℚ) := by exact_mod_cast hN
    have hab : (a : ℚ) ≤ (b : ℚ) := by exact_mod_cast h
    exact (div_le_div_iff_of_pos_right hNQ).2 hab

lemma ratio_div_le_one {a b : ℕ} (N : ℕ) (h : a ≤ b) :
    ((a : ℚ) / (N : ℚ)) / ((b : ℚ) / (N : ℚ)) ≤ 1 := by
  rcases Nat.eq_zero_or_pos N with rfl | hN
  · simp
  · rcases Nat.eq_zero_or_pos b with rfl | hb
    · have ha : a = 0 := Nat.le_zero.1 h
      subst ha
      simp
    · have hNQ : (0 : ℚ) < (N : ℚ) := by exact_mod_cast hN
      have hbQ : (0 : ℚ) < (b : ℚ) := by exact_mod_cast hb
      have heq : ((a : ℚ) / N) / ((b : ℚ) / N) = (a : ℚ) / (b : ℚ) := by
        field_simp
      rw [heq, div_le_one hbQ]
      exact_mod_cast h

end ArithLemmas

/-- C3: completeness of the miner — for every transaction list and every set
`S` of 1 to 5 distinct items drawn from the transactions whose support
fraction is at least `min_support`, the mining run emits a frequent itemset
whose item content equals `S`; the anti-monotonic pruning and the
strictly-later candidate restriction never lose such an itemset. -/
theorem C3_miner_completeness (ts : List (List α)) (s : ℚ) (S : Finset α)
    (hobs : ∀ x ∈ S, x ∈ ts.flatten)
    (hne : S.Nonempty) (hcard : S.card ≤ 5)
    (hsup : s ≤ ((coverTids ts S).card : ℚ) / (ts.length : ℚ)) :
    ∃ e ∈ fitItemsets ts s, e.itemset.toFinset = S := by
  rcases Nat.eq_zero_or_pos ts.length with hN | hN
  · obtain ⟨x, hx⟩ := hne
    rw [List.length_eq_zero] at hN
    subst hN
    exact absurd (hobs x hx) (by simp)
  · have hmc : minCount s ts.length ≤ (coverTids ts S).card := by
      have hNQ : (0 : ℚ) < (ts.length : ℚ) := by exact_mod_cast hN
      have h1 : s * (ts.length : ℚ) ≤ ((coverTids ts S).card : ℚ) :=
        (le_div_iff hNQ).1 hsup
      have h2 : ⌊s * (ts.length : ℚ)⌋ ≤ ((coverTids ts S).card : ℤ) := by
        have h3 := Int.floor_mono h1
        rwa [Int.floor_natCast] at h3
      unfold minCount
      exact Int.toNat_le.2 h2
    have hfreq : ∀ x ∈ S, x ∈ freqItemsList ts (minCount s ts.length) := by
      intro x hx
      rw [mem_freqItemsList]
      refine ⟨hobs x hx, le_trans hmc (Finset.card_le_card ?_)⟩
      intro t ht
      rw [mem_coverTids] at ht
      exact mem_tidList.2 ⟨ht.1, ht.2 x hx⟩
    obtain ⟨sl, hslS, hsl_sorted, hsl_mem, hlen⟩ :
        ∃ sl : List α, sl.toFinset = S ∧ sl.Sorted (· < ·) ∧
          (∀ y, y ∈ sl ↔ y ∈ S) ∧ sl.length = S.card :=
      ⟨S.sort (· ≤ ·), Finset.sort_toFinset _ S, S.sort_sorted_lt,
        fun y => Finset.mem_sort _, Finset.length_sort _⟩
    have hsub : sl.Sublist (sortedItems ts (minCount s ts.length)) := by
      apply sublist_of_sorted_subset hsl_sorted (sorted_lt_sortedItems ts _)
      intro y hy
      rw [mem_sortedItems]
      exact hfreq y ((hsl_mem y).1 hy)
    cases sl with
    | nil =>
        exfalso
        obtain ⟨x, hx⟩ := hne
        exact absurd ((hsl_mem x).2 hx) (List.not_mem_nil x)
    | cons x sl' =>
        cases sl' with
        | nil =>
            have hxS : x ∈ freqItemsList ts (minCount s ts.length) := by
              apply hfreq
              exact (hsl_mem x).1 (List.mem_singleton.2 rfl)
            refine ⟨{ itemset := [x]
                      support := ((tidList ts x).card : ℚ) / (ts.length : ℚ)
                      tid_list := tidList ts x }, ?_, ?_⟩
            · rw [fitItemsets_eq]
              apply List.mem_append_left
              rw [size1Entries]
              exact List.mem_map.2 ⟨x, hxS, rfl⟩
            · exact hslS
        | cons z sl'' =>
            have hcard_int : minCount s ts.length ≤
                (interTids (tidList ts) (tidList ts x) (z :: sl'')).card := by
              rw [interTids_eq_itemsetTids, itemsetTids_eq_coverTids, hslS]
              exact hmc
            obtain ⟨e, he, h1⟩ := eclatTop_complete (tidList ts) ts.length
              (minCount s ts.length) (sortedItems ts (minCount s ts.length))
              x (z :: sl'') hsub (by simp) (by rw [hlen]; exact hcard)
              hcard_int
            refine ⟨e, ?_, ?_⟩
            · rw [fitItemsets_eq]
              exact List.mem_append_right _ he
            · rw [h1]
              exact hslS

/-- C4: for every `min_support` in `[0, 1]` and every transaction list, the
count threshold deciding emission equals `⌊min_support * N⌋` (truncation of
the exact product), and an observed item is emitted as a size-1 itemset
exactly when its tid-list size reaches that floor. -/
theorem C4_floor_threshold (ts : List (List α)) (s : ℚ) (x : α)
    (h0 : 0 ≤ s) (h1 : s ≤ 1) (hx : x ∈ ts.flatten) :
    (minCount s ts.length : ℤ) = ⌊s * (ts.length : ℚ)⌋ ∧
    ((∃ e ∈ fitItemsets ts s, e.itemset = [x]) ↔
      minCount s ts.length ≤ (tidList ts x).card) := by
  constructor
  · unfold minCount
    refine Int.toNat_of_nonneg ?_
    refine Int.floor_nonneg.2 (mul_nonneg h0 ?_)
    exact_mod_cast Nat.zero_le ts.length
  · constructor
    · rintro ⟨e, he, hitem⟩
      rw [fitItemsets_eq] at he
      rcases List.mem_append.1 he with he | he
      · rw [size1Entries, List.mem_map] at he
        obtain ⟨y, hy, rfl⟩ := he
        simp only [List.cons.injEq, and_true] at hitem
        subst hitem
        exact (mem_freqItemsList.1 hy).2
      · obtain ⟨a, b, l, hl, -⟩ := eclatTop_shape _ _ _ _ e he
        rw [hitem] at hl
        simp at hl
    · intro hc
      refine ⟨{ itemset := [x]
                support := ((tidList ts x).card : ℚ) / (ts.length : ℚ)
                tid_list := tidList ts x }, ?_, rfl⟩
      rw [fitItemsets_eq]
      apply List.mem_append_left
      rw [size1Entries]
      exact List.mem_map.2 ⟨x, mem_freqItemsList.2 ⟨hx, hc⟩, rfl⟩

/-- C5: each itemset is generated exactly once — no two emitted entries of
one run share the same item content, and every emitted itemset's item
sequence is strictly increasing in the canonical item order. -/
theorem C5_each_itemset_once (ts : List (List α)) (s : ℚ) :
    (fitItemsets ts s).Pairwise
      (fun e₁ e₂ => e₁.itemset.toFinset ≠ e₂.itemset.toFinset) ∧
    ∀ e ∈ fitItemsets ts s, e.itemset.Sorted (· < ·) := by
  have hgood := fitItemsets_good ts s
  refine ⟨?_, fun e he => (hgood e he).2.1⟩
  have hnd := fitItemsets_itemsets_nodup ts s
  rw [List.Nodup, List.pairwise_map] at hnd
  refine hnd.imp_of_mem ?_
  intro e₁ e₂ h1 h2 hne heq
  exact hne (eq_of_sorted_lt_of_toFinset_eq (hgood e₁ h1).2.1
    (hgood e₂ h2).2.1 heq)

/-- C6: anti-monotonicity of emitted supports — if two itemsets are emitted
in one run and the first's content is a strict subset of the second's, the
first's recorded support is at least the second's. -/
theorem C6_support_antimonotone (ts : List (List α)) (s : ℚ)
    (e₁ e₂ : ItemsetEntry α)
    (h1 : e₁ ∈ fitItemsets ts s) (h2 : e₂ ∈ fitItemsets ts s)
    (hsub : e₁.itemset.toFinset ⊂ e₂.itemset.toFinset) :
    e₂.support ≤ e₁.support := by
  obtain ⟨-, -, ht1, hs1, -, -⟩ := fitItemsets_good ts s e₁ h1
  obtain ⟨-, -, ht2, hs2, -, -⟩ := fitItemsets_good ts s e₂ h2
  rw [hs1, hs2, ht1, ht2]
  apply natCast_div_mono
  apply Finset.card_le_card
  apply itemsetTids_antitone
  intro x hx
  exact List.mem_toFinset.1 (hsub.subset (List.mem_toFinset.2 hx))

/-- C7: rule closure — every emitted rule has a nonempty antecedent and a
nonempty consequent, the two are disjoint, and their union has the item
content of some emitted frequent itemset. -/
theorem C7_rule_closure (ts : List (List α)) (s c : ℚ) (r : Rule α)
    (hr : r ∈ (eclatFit ts s c).rules) :
    r.antecedent ≠ [] ∧ r.consequent ≠ [] ∧
    (∀ x ∈ r.consequent, x ∉ r.antecedent) ∧
    ∃ e ∈ (eclatFit ts s c).frequent_itemsets,
      (r.antecedent ++ r.consequent).toFinset = e.itemset.toFinset := by
  have hr' : r ∈ generateRules (fitItemsets ts s) c := hr
  obtain ⟨e, he, ante, hsub, hlen2, hal, hau, hmem⟩ := mem_generateRules hr'
  obtain ⟨v, hlu, hconf, rfl⟩ := mem_rulesFromSplit hmem
  obtain ⟨-, hsorted, -, -, -, -⟩ := fitItemsets_good ts s e he
  refine ⟨?_, ?_, ?_, ⟨e, he, ?_⟩⟩
  · intro h
    have h' : ante = [] := h
    rw [h'] at hal
    simp at hal
  · exact filter_not_mem_ne_nil hsorted.nodup hau
  · intro x hx
    exact (mem_filter_not_mem.1 hx).2
  · exact split_union_content ante (fun x hx => hsub.subset hx)

/-- C8: confidence bound — every emitted rule has
`min_confidence ≤ confidence ≤ 1`, and its confidence equals the recorded
support of the originating itemset divided by the recorded support of the
emitted itemset whose content is the antecedent. -/
theorem C8_confidence_bound (ts : List (List α)) (s c : ℚ) (r : Rule α)
    (hr : r ∈ (eclatFit ts s c).rules) :
    c ≤ r.confidence ∧ r.confidence ≤ 1 ∧
    ∃ e ∈ (eclatFit ts s c).frequent_itemsets,
      ∃ ea ∈ (eclatFit ts s c).frequent_itemsets,
        e.itemset.toFinset = (r.antecedent ++ r.consequent).toFinset ∧
        ea.itemset.toFinset = r.antecedent.toFinset ∧
        r.confidence = e.support / ea.support := by
  have hr' : r ∈ generateRules (fitItemsets ts s) c := hr
  obtain ⟨e, he, ante, hsub, hlen2, hal, hau, hmem⟩ := mem_generateRules hr'
  obtain ⟨v, hlu, hconf, rfl⟩ := mem_rulesFromSplit hmem
  obtain ⟨ea, hea, hcontent, hsupv⟩ := supportLookup_some hlu
  obtain ⟨-, -, hte, hse, -, -⟩ := fitItemsets_good ts s e he
  obtain ⟨-, -, hta, hsa, -, -⟩ := fitItemsets_good ts s ea hea
  subst hsupv
  refine ⟨hconf, ?_, e, he, ea, hea, ?_, hcontent, rfl⟩
  · show e.support / ea.support ≤ 1
    rw [hse, hsa, hte, hta]
    apply ratio_div_le_one
    apply Finset.card_le_card
    apply itemsetTids_antitone
    intro x hx
    have hx2 : x ∈ ante := by
      have := List.mem_toFinset.2 hx
      rw [hcontent] at this
      exact List.mem_toFinset.1 this
    exact hsub.subset hx2
  · exact (split_union_content ante (fun x hx => hsub.subset hx)).symm

/-- C9: rule generation never fails on a missing support lookup — a split
whose antecedent content is absent from the lookup table is silently
discarded, and a missing consequent content makes the fixed default support
`1/10000` the denominator of the lift, so the lift denominator is nonzero. -/
theorem C9_defensive_lookup (entries : List (ItemsetEntry α)) (minConf : ℚ)
    (itemset : List α) (isSup : ℚ) (ante : List α) :
    (supportLookup entries ante.toFinset = none →
      rulesFromSplit (supportLookup entries) minConf itemset isSup ante = []) ∧
    (∀ v, supportLookup entries ante.toFinset = some v → minConf ≤ isSup / v →
      supportLookup entries
          (itemset.filter (fun x => decide (x ∉ ante))).toFinset = none →
      rulesFromSplit (supportLookup entries) minConf itemset isSup ante =
        [{ antecedent := ante
           consequent := itemset.filter (fun x => decide (x ∉ ante))
           support := isSup
           confidence := isSup / v
           lift := (isSup / v) / (1 / 10000) }] ∧ (1 / 10000 : ℚ) ≠ 0) := by
  constructor
  · intro h
    exact rulesFromSplit_none h
  · intro v hv hconf hnone
    refine ⟨?_, by norm_num⟩
    rw [rulesFromSplit_some hv, if_pos hconf, hnone]
    rfl

/-- C2: for the empty transaction list the run returns empty itemset and
rule lists with both counters zero, for any thresholds; no item occurs, so
no support is ever computed. -/
theorem C2_empty_input (s c : ℚ) :
    getResults ([] : List (List α)) s c =
      { frequent_itemsets := [], rules := [], num_rules := 0,
        num_itemsets := 0 } := rfl

section ConcreteRuns

attribute [local semireducible] Rat.add Rat.mul Rat.inv Rat.sub

set_option maxRecDepth 8000 in
/-- C1: worked example (items A, B, C encoded as 0, 1, 2): for transactions
`[{A,B}, {A,B}, {A,C}, {B,C}, {A,B,C}]` with `min_support = 2/5` and
`min_confidence = 1/2`, the run uses `min_count = 2`, emits exactly the
itemsets `{A}, {B}, {C}, {A,B}, {A,C}, {B,C}` with supports
`4/5, 4/5, 3/5, 3/5, 2/5, 2/5`, does not emit `{A,B,C}`, and keeps the rule
`A ⇒ B` with confidence `3/4` and lift `15/16`. -/
theorem C1_worked_example :
    minCount (2/5) ([[0,1],[0,1],[0,2],[1,2],[0,1,2]] : List (List ℕ)).length
        = 2 ∧
    (fitItemsets ([[0,1],[0,1],[0,2],[1,2],[0,1,2]] : List (List ℕ))
        (2/5)).map (fun e => (e.itemset, e.support)) =
      [([0], 4/5), ([1], 4/5), ([2], 3/5), ([0,1], 3/5), ([0,2], 2/5),
        ([1,2], 2/5)] ∧
    (∀ e ∈ fitItemsets ([[0,1],[0,1],[0,2],[1,2],[0,1,2]] : List (List ℕ))
        (2/5), e.itemset.toFinset ≠ ({0, 1, 2} : Finset ℕ)) ∧
    { antecedent := [0], consequent := [1], support := 3/5,
      confidence := 3/4, lift := 15/16 : Rule ℕ } ∈
      (eclatFit ([[0,1],[0,1],[0,2],[1,2],[0,1,2]] : List (List ℕ))
        (2/5) (1/2)).rules :=
  ⟨by decide, by decide, by decide, by decide⟩

/-- C10: the miner is not sound with respect to the `min_support` fraction —
on the nonempty transaction list `[[0],[1]]` with `min_support = 1/4 > 0`,
`min_count = ⌊1/4 · 2⌋ = 0`, and the run emits the itemset `{0,1}` whose
recorded support is `0 < 1/4`, from an empty tid-list intersection. -/
theorem C10_unsound_emission :
    (0 : ℚ) < 1/4 ∧ ([[0],[1]] : List (List ℕ)) ≠ [] ∧
    minCount (1/4) ([[0],[1]] : List (List ℕ)).length = 0 ∧
    ∃ e ∈ fitItemsets ([[0],[1]] : List (List ℕ)) (1/4),
      e.support = 0 ∧ e.support < 1/4 ∧ e.tid_list = ∅ :=
  ⟨by norm_num, by decide, by decide, by decide⟩

/-- Witness for C3 at a concrete input. -/
theorem C3_miner_completeness_witness :
    (∀ x ∈ ({0, 1} : Finset ℕ), x ∈ ([[0,1]] : List (List ℕ)).flatten) ∧
    ({0, 1} : Finset ℕ).Nonempty ∧ ({0, 1} : Finset ℕ).card ≤ 5 ∧
    (1/2 : ℚ) ≤ ((coverTids [[0,1]] ({0,1} : Finset ℕ)).card : ℚ) /
      (([[0,1]] : List (List ℕ)).length : ℚ) ∧
    ∃ e ∈ fitItemsets ([[0,1]] : List (List ℕ)) (1/2),
      e.itemset.toFinset = ({0, 1} : Finset ℕ) :=
  ⟨by decide, by decide, by decide, by decide,
    C3_miner_completeness [[0,1]] (1/2) {0,1} (by decide) (by decide)
      (by decide) (by decide)⟩

/-- Witness for C4 at a concrete input. -/
theorem C4_floor_threshold_witness :
    (0 : ℚ) ≤ 1/2 ∧ (1/2 : ℚ) ≤ 1 ∧
    (0 : ℕ) ∈ ([[0]] : List (List ℕ)).flatten ∧
    ((minCount (1/2) ([[0]] : List (List ℕ)).length : ℤ) =
      ⌊(1/2 : ℚ) * (([[0]] : List (List ℕ)).length : ℚ)⌋ ∧
    ((∃ e ∈ fitItemsets ([[0]] : List (List ℕ)) (1/2), e.itemset = [0]) ↔
      minCount (1/2) ([[0]] : List (List ℕ)).length ≤
        (tidList [[0]] 0).card)) :=
  ⟨by norm_num, by norm_num, by decide,
    C4_floor_threshold [[0]] (1/2) 0 (by norm_num) (by norm_num) (by decide)⟩

/-- Witness for C5 at a concrete input. -/
theorem C5_each_itemset_once_witness :
    ({ itemset := [0], support := 1, tid_list := {0} } : ItemsetEntry ℕ) ∈
        fitItemsets ([[0]] : List (List ℕ)) 1 ∧
    ([0] : List ℕ).Sorted (· < ·) :=
  ⟨by decide, (C5_each_itemset_once [[0]] 1).2
    { itemset := [0], support := 1, tid_list := {0} } (by decide)⟩

/-- Witness for C6 at a concrete input. -/
theorem C6_support_antimonotone_witness :
    ({ itemset := [0], support := 1, tid_list := {0} } : ItemsetEntry ℕ) ∈
        fitItemsets ([[0, 1]] : List (List ℕ)) (1/2) ∧
    ({ itemset := [0, 1], support := 1, tid_list := {0} } : ItemsetEntry ℕ) ∈
        fitItemsets ([[0, 1]] : List (List ℕ)) (1/2) ∧
    ([0] : List ℕ).toFinset ⊂ ([0, 1] : List ℕ).toFinset ∧
    ({ itemset := [0, 1], support := 1, tid_list := {0} } :
        ItemsetEntry ℕ).support ≤
      ({ itemset := [0], support := 1, tid_list := {0} } :
        ItemsetEntry ℕ).support :=
  ⟨by decide, by decide, by decide,
    C6_support_antimonotone [[0,1]] (1/2) _ _ (by decide) (by decide)
      (by decide)⟩

/-- Witness for C7 at a concrete input. -/
theorem C7_rule_closure_witness :
    ({ antecedent := [0], consequent := [1], support := 1, confidence := 1,
       lift := 1 } : Rule ℕ) ∈
        (eclatFit ([[0,1]] : List (List ℕ)) (1/2) 0).rules ∧
    (([0] : List ℕ) ≠ [] ∧ ([1] : List ℕ) ≠ [] ∧
      (∀ x ∈ ([1] : List ℕ), x ∉ ([0] : List ℕ)) ∧
      ∃ e ∈ (eclatFit ([[0,1]] : List (List ℕ)) (1/2) 0).frequent_itemsets,
        (([0] : List ℕ) ++ [1]).toFinset = e.itemset.toFinset) :=
  ⟨by decide, C7_rule_closure [[0,1]] (1/2) 0
    { antecedent := [0], consequent := [1], support := 1, confidence := 1,
      lift := 1 } (by decide)⟩

/-- Witness for C8 at a concrete input. -/
theorem C8_confidence_bound_witness :
    ({ antecedent := [0], consequent := [1], support := 1, confidence := 1,
       lift := 1 } : Rule ℕ) ∈
        (eclatFit ([[0,1]] : List (List ℕ)) (1/2) 0).rules ∧
    ((0 : ℚ) ≤ 1 ∧ (1 : ℚ) ≤ 1 ∧
      ∃ e ∈ (eclatFit ([[0,1]] : List (List ℕ)) (1/2) 0).frequent_itemsets,
        ∃ ea ∈ (eclatFit ([[0,1]] : List (List ℕ)) (1/2) 0).frequent_itemsets,
          e.itemset.toFinset = (([0] : List ℕ) ++ [1]).toFinset ∧
          ea.itemset.toFinset = ([0] : List ℕ).toFinset ∧
          (1 : ℚ) = e.support / ea.support) :=
  ⟨by decide, C8_confidence_bound [[0,1]] (1/2) 0
    { antecedent := [0], consequent := [1], support := 1, confidence := 1,
      lift := 1 } (by decide)⟩

/-- Witness for C9 at a concrete input. -/
theorem C9_defensive_lookup_witness :
    rulesFromSplit (supportLookup ([] : List (ItemsetEntry ℕ))) (1/2)
        ([0,1] : List ℕ) (3/5) [0] = [] ∧
    (rulesFromSplit
        (supportLookup ([{ itemset := [0], support := 1, tid_list := {0} }] :
          List (ItemsetEntry ℕ))) 0 ([0,1] : List ℕ) (1/2) [0] =
      [{ antecedent := [0], consequent := [1], support := 1/2,
         confidence := (1/2) / 1, lift := ((1/2) / 1) / (1 / 10000) }] ∧
      (1/10000 : ℚ) ≠ 0) :=
  ⟨(C9_defensive_lookup [] (1/2) [0,1] (3/5) [0]).1 (by decide),
    (C9_defensive_lookup [{ itemset := [0], support := 1, tid_list := {0} }]
      0 [0,1] (1/2) [0]).2 1 (by decide) (by norm_num) (by decide)⟩

end ConcreteRuns

end Eclat
